import Mathlib

/-!
Verification of the ia2audio capture / transcription / assembly pipeline.

Strings are modelled as `List Char` (JS strings are sequences of UTF-16 code
units; all inputs relevant here are plain BMP text, where the two views agree).
Each definition below is a shallow embedding of a function or code block of
the repository; the source location is given in its doc comment.  Definitions
whose doc comment says they follow the specification text rather than the
source are reference models used to compare the code against the claim.
-/

/-! # Definitions -/

/-- JS regex class `\s` and the `String.prototype.trim` whitespace set:
tab, LF, VT, FF, CR, space, NBSP, and the Unicode space separators,
plus FEFF. Only the ASCII members actually occur in the claims. -/
def isWs (c : Char) : Bool :=
  c.toNat = 9 ∨ c.toNat = 10 ∨ c.toNat = 11 ∨ c.toNat = 12 ∨ c.toNat = 13 ∨
  c.toNat = 32 ∨ c.toNat = 0xa0 ∨ c.toNat = 0x1680 ∨
  (0x2000 ≤ c.toNat ∧ c.toNat ≤ 0x200a) ∨ c.toNat = 0x2028 ∨ c.toNat = 0x2029 ∨
  c.toNat = 0x202f ∨ c.toNat = 0x205f ∨ c.toNat = 0x3000 ∨ c.toNat = 0xfeff

/-- JS regex class `\d`, exactly the ASCII digits 0-9. -/
def isDigitCh (c : Char) : Bool :=
  48 ≤ c.toNat ∧ c.toNat ≤ 57

/-! ## Content assembler: per-chunk text normalization

Source: src/transcribe-book-content.ts (assembler half), lines 212-220:
chunk.text .replace(/\r/g, '') .replace(/\n{2,}/g, '\n\n')
.replace(/\n/g, ' ') .trim()
-/

/-- Embedding of `.replace(/\r/g, '')`: every carriage return is removed. -/
def stripCR (l : List Char) : List Char :=
  l.filter (fun c => !(c = '\r'))

/-- Worker for `collapseNl`. `run` counts the newlines of the maximal run seen
immediately before the current position; at each run boundary the replacement
emits `min run 2` newlines, which is exactly what replacing every maximal run
of two or more newlines by a two-newline string does. -/
def collapseNlGo (run : Nat) : List Char → List Char
  | [] => List.replicate (min run 2) '\n'
  | c :: rest =>
      if c = '\n' then collapseNlGo (run + 1) rest
      else List.replicate (min run 2) '\n' ++ (c :: collapseNlGo 0 rest)

/-- Embedding of `.replace(/\n{2,}/g, '\n\n')`: each maximal run of two or
more newlines becomes exactly two newlines; single newlines are untouched. -/
def collapseNl (l : List Char) : List Char :=
  collapseNlGo 0 l

/-- Embedding of `.replace(/\n/g, ' ')`: every newline becomes a space. -/
def nlToSpace (l : List Char) : List Char :=
  l.map (fun c => if c = '\n' then ' ' else c)

/-- Embedding of `String.prototype.trim`: strips leading and trailing
whitespace. -/
def trimJS (l : List Char) : List Char :=
  ((l.dropWhile isWs).reverse.dropWhile isWs).reverse

/-- The assembler's per-chunk normalization, transcribe-book-content.ts
lines 212-220 (assembler half): strip CRs, normalize newline runs, replace
every remaining newline by a space, trim. -/
def foldChunkText (l : List Char) : List Char :=
  trimJS (nlToSpace (collapseNl (stripCR l)))

/-! ## Transcription pipeline: response cleaning

Source: src/transcribe-book-content.ts lines 71-74:
rawText .replace(/^\s*\d+\s*$\n+/m, '') .replaceAll(/^\s*/gm, '')
.replaceAll(/\s*$/gm, '')

JS multiline semantics that the embedding must honour: `^` matches at
position 0 and right after every LF; `$` matches at the end of input and
right before every LF; `\s` includes LF itself, so the per-line trim
passes can consume newlines.
-/

/-- Suffix of a list starting at its last newline; the whole list when it
contains no newline.  This is the part of a whitespace run the regex
`/\s*$/gm` keeps (greedy `\s*` backtracks to the last position where `$`
holds, which inside a whitespace run is its last LF). -/
def suffixFromLastNl : List Char → List Char
  | [] => []
  | c :: rest => if rest.contains '\n' then suffixFromLastNl rest else c :: rest

/-- Length of the match of `\s*\d+\s*$\n+` at a given position (the caller
checks the `^` anchor).  Greedy semantics: the first `\s*` is the maximal
whitespace run (digits are not whitespace, so backtracking it never helps
unless the digit run is empty, in which case no match exists at all);
`\d+` is the maximal digit run (shortening it would put `$` on a digit);
the second `\s*` backtracks to the last LF inside the following whitespace
run, where `$` holds and `\n+` matches exactly that LF (no LF follows it
inside the run). -/
def bareNumMatchLen (u : List Char) : Option Nat :=
  let w1 := u.takeWhile isWs
  let r1 := u.dropWhile isWs
  let d := r1.takeWhile isDigitCh
  let r2 := r1.dropWhile isDigitCh
  if d.isEmpty then none
  else
    let w2 := r2.takeWhile isWs
    if w2.contains '\n' then
      some (w1.length + d.length + (w2.length - (suffixFromLastNl w2).length) + 1)
    else none

/-- Scanner for the non-global `.replace(/^\s*\d+\s*$\n+/m, '')`: walk the
string, try the pattern at every `^` position (`atLS` tracks whether the
current position starts a line), delete the first match and return the rest
of the string unchanged. -/
def bnGo (atLS : Bool) : List Char → List Char
  | [] => []
  | c :: rest =>
      if atLS then
        match bareNumMatchLen (c :: rest) with
        | some n => (c :: rest).drop n
        | none => c :: bnGo (c = '\n') rest
      else c :: bnGo (c = '\n') rest

/-- Embedding of `.replace(/^\s*\d+\s*$\n+/m, '')`: remove the first line
consisting of whitespace and a bare number, together with its newline,
anywhere in the string. -/
def stripFirstBareNum (l : List Char) : List Char :=
  bnGo true l

/-- Embedding of `.replaceAll(/^\s*/gm, '')`: at every line start the maximal
whitespace run (which may span newlines, emptying whitespace-only lines) is
deleted; `atLS` tracks whether the scanner sits at a line start. -/
def slGo (atLS : Bool) : List Char → List Char
  | [] => []
  | c :: rest =>
      if atLS ∧ isWs c then slGo true rest
      else c :: slGo (c = '\n') rest

/-- The `/^\s*/gm` pass of the cleaning step. -/
def stripLineLeading (l : List Char) : List Char :=
  slGo true l

/-- Embedding of `.replaceAll(/\s*$/gm, '')`, via the run rule it induces:
a maximal whitespace run at the end of input is deleted entirely (`\s*`
reaches the end of input where `$` holds); any other maximal whitespace run
is replaced by its suffix from its last newline on (greedy `\s*` backtracks
to the last LF, deleting everything before it; the scanner then finds no
further match inside the kept part, whose LF yields only an empty match and
whose trailing non-LF whitespace admits no `$`).  `pending` buffers the
whitespace run currently being scanned. -/
def stGo (pending : List Char) : List Char → List Char
  | [] => []
  | c :: rest =>
      if isWs c then stGo (pending ++ [c]) rest
      else suffixFromLastNl pending ++ (c :: stGo [] rest)

/-- The `/\s*$/gm` pass of the cleaning step. -/
def stripLineTrailing (l : List Char) : List Char :=
  stGo [] l

/-- The complete response-cleaning step of the transcription pipeline,
transcribe-book-content.ts lines 71-74. -/
def cleanResponse (raw : List Char) : List Char :=
  stripLineTrailing (stripLineLeading (stripFirstBareNum raw))

/-! ## Transcription pipeline: per-image retry loop

Source: src/transcribe-book-content.ts lines 44-99.  The loop is modelled
against a finite list of recognition responses, one response per attempt;
`attempts` counts the responses consumed and `delays` records the backoff
waits `min(500 * retries, 5000)` performed on the refusal branch.  The
outcome `stillLooping` means the loop consumed every supplied response
without returning a chunk or throwing: since the real loop would simply
issue another request, a `stillLooping` result after n responses shows the
loop is still running after n attempts.
-/

/-- Lower-casing as performed by the `/i` regex flag on ASCII input. -/
def lowerAscii (l : List Char) : List Char :=
  l.map Char.toLower

/-- Does `pat` occur as a contiguous subsequence of `l`? -/
def containsSeq (pat : List Char) : List Char → Bool
  | [] => pat.isEmpty
  | c :: rest => pat.isPrefixOf (c :: rest) || containsSeq pat rest

/-- The pattern of `/i'm sorry/i` (lower-cased; the apostrophe is 0x27). -/
def imSorryPat : List Char :=
  ['i', '\x27', 'm', ' ', 's', 'o', 'r', 'r', 'y']

/-- Embedding of `/i'm sorry/i.test(text)`. -/
def imSorryTest (l : List Char) : Bool :=
  containsSeq imSorryPat (lowerAscii l)

/-- Outcome of the per-image OCR loop. -/
inductive OcrOutcome where
  | chunk (text : List Char)
  | failed
  | stillLooping
  deriving DecidableEq, Repr

/-- Trace of one run of the per-image OCR loop. -/
structure OcrTrace where
  outcome : OcrOutcome
  attempts : Nat
  delays : List Nat
  deriving DecidableEq, Repr

/-- Embedding of the do-while retry loop, transcribe-book-content.ts lines
47-99.  `maxRetries` is the configured bound (OCR_MAX_RETRIES), `retries`
the attempt counter (incremented right after cleaning, line 76).  Branches,
in source order: empty cleaned text retries immediately with NO bound check
(line 78); short text matching the refusal pattern throws once
`retries >= maxRetries` and otherwise backs off `min(500*retries, 5000)`
and retries (lines 79-89); anything else is returned as the chunk text. -/
def runOcr (maxRetries retries : Nat) : List (List Char) → OcrTrace
  | [] => ⟨.stillLooping, 0, []⟩
  | raw :: rest =>
      let text := cleanResponse raw
      let r := retries + 1
      if text.isEmpty then
        let t := runOcr maxRetries r rest
        ⟨t.outcome, t.attempts + 1, t.delays⟩
      else if text.length < 100 ∧ imSorryTest text then
        if maxRetries ≤ r then ⟨.failed, 1, []⟩
        else
          let t := runOcr maxRetries r rest
          ⟨t.outcome, t.attempts + 1, min (500 * r) 5000 :: t.delays⟩
      else ⟨.chunk text, 1, []⟩

/-- Per-image result as seen by the surrounding Promise.all: a chunk on
success, undefined (`none`) when the loop threw and the catch block at lines
100-102 swallowed the error. -/
def processImage (maxRetries : Nat) (responses : List (List Char)) :
    Option (List Char) :=
  match (runOcr maxRetries 0 responses).outcome with
  | .chunk t => some t
  | _ => none

/-- Embedding of `.filter(Boolean)` over the settled per-image results,
line 105: undefined results are dropped, chunks are kept. -/
def collectContent (results : List (Option (List Char))) : List (List Char) :=
  results.filterMap id

/-- A refusal-shaped recognition response: short, and matching the refusal
pattern (the apostrophe is written as 0x27).  Cleaning leaves it unchanged:
it has no bare-number line and no leading or trailing whitespace. -/
def rawRefusal : List Char :=
  'I' :: '\x27' :: ("m sorry, I cannot transcribe this.".data)

/-! ## Line-trimming invariants used to state the corrected form of the
cleaning claim -/

/-- The first character, if any, is not whitespace. -/
def headOk : List Char → Bool
  | [] => true
  | c :: _ => !isWs c

/-- No whitespace character (including a second LF) directly follows an LF:
every line of the string starts with a non-whitespace character. -/
def noNlWs : List Char → Bool
  | a :: b :: rest => (!(a == '\n' && isWs b)) && noNlWs (b :: rest)
  | _ => true

/-- No whitespace character directly precedes an LF: no line of the string
ends with trailing whitespace. -/
def noWsNl : List Char → Bool
  | a :: b :: rest => (!(isWs a && b == '\n')) && noWsNl (b :: rest)
  | _ => true

/-- The last character, if any, is not whitespace. -/
def lastOk : List Char → Bool
  | [] => true
  | [c] => !isWs c
  | _ :: b :: rest => lastOk (b :: rest)

/-! ## Reference model of the cleaning step as the claim words it -/

/-- Split at every LF (an LF terminates a line; a trailing LF yields a final
empty line), as a line-by-line reading of the cleaning step would. -/
def splitLines : List Char → List (List Char)
  | [] => [[]]
  | c :: rest =>
      if c = '\n' then [] :: splitLines rest
      else
        match splitLines rest with
        | ln :: more => (c :: ln) :: more
        | [] => [[c]]

/-- A line consisting of optional whitespace around a bare number. -/
def isBareNumLine (l : List Char) : Bool :=
  let t := l.dropWhile isWs
  let d := t.takeWhile isDigitCh
  (!d.isEmpty) && (t.dropWhile isDigitCh).all isWs

/-- Join lines with single LFs. -/
def joinNl : List (List Char) → List Char
  | [] => []
  | [l] => l
  | l :: rest => l ++ '\n' :: joinNl rest

/-- Reference model following the claim text (not the source): remove a bare
page-number line only when it is the leading line of the response, and trim
leading and trailing whitespace on every line. -/
def specClean (l : List Char) : List Char :=
  let lines := splitLines l
  let lines2 :=
    match lines with
    | [] => []
    | ln :: rest => if isBareNumLine ln then rest else ln :: rest
  joinNl (lines2.map trimJS)

/-! ## Content assembler: TOC sectioning

Source: src/transcribe-book-content.ts (assembler half), lines 147-226.
-/

/-- A transcribed chunk as consumed by the assembler (types.ts ContentChunk,
with the fields the sectioning logic reads). -/
structure ContentChunk where
  index : Nat
  page : Nat
  text : List Char
  deriving DecidableEq, Repr

/-- A TOC entry (types.ts TocItem, with the fields the assembler reads). -/
structure TocItem where
  title : List Char
  page : Option Nat
  total : Nat
  deriving DecidableEq, Repr

/-- Embedding of `contentSorted.findIndex((c) => c.page >= p)` with the
`-1 → contentSorted.length` fixup of line 185. -/
def firstIdxGe (chunks : List ContentChunk) (p : Nat) : Nat :=
  match chunks.findIdx? (fun c => p ≤ c.page) with
  | some i => i
  | none => chunks.length

/-- Embedding of `computeNextIndex`, transcribe-book-content.ts lines
179-189: missing next entry or next entry without a page gives the end of
the chunk list; otherwise the first chunk whose page reaches the next
entry's page, clamped to be at least the current cursor. -/
def computeNextIndex (toc : List TocItem) (chunks : List ContentChunk)
    (currentIndex tocIndex : Nat) : Nat :=
  match toc.get? (tocIndex + 1) with
  | none => chunks.length
  | some nextTocItem =>
      match nextTocItem.page with
      | none => chunks.length
      | some p =>
          let nextIndex := firstIdxGe chunks p
          if nextIndex < currentIndex then currentIndex else nextIndex

/-- Reference model following the specification text (not the source): the
boundary for TOC entry `tocIndex` is the first chunk whose page reaches the
next entry's start page; the end of the chunk list when no next entry, no
next start page, or no such chunk exists. -/
def boundarySpec (toc : List TocItem) (chunks : List ContentChunk)
    (tocIndex : Nat) : Nat :=
  match (toc.get? (tocIndex + 1)).bind (fun t => t.page) with
  | none => chunks.length
  | some p => firstIdxGe chunks p

/-- Embedding of the sectioning loop, lines 204-226: iterate `i` from 0
while `i < toc.length - 1` (`fuel` counts the remaining iterations);
entries without a page are skipped without advancing the cursor; otherwise
the slice `[idx, nextIndex)` becomes the section body and the cursor moves
to `nextIndex`. -/
def sectionsGo (toc : List TocItem) (chunks : List ContentChunk) :
    Nat → Nat → Nat → List (List Char × List ContentChunk)
  | 0, _, _ => []
  | fuel + 1, i, idx =>
      match toc.get? i with
      | none => []
      | some t =>
          match t.page with
          | none => sectionsGo toc chunks fuel (i + 1) idx
          | some _ =>
              let nx := computeNextIndex toc chunks idx i
              (t.title, (chunks.drop idx).take (nx - idx))
                :: sectionsGo toc chunks fuel (i + 1) nx

/-- The assembler's section slices: one `(title, chunks)` pair per TOC entry
with a page, in order. -/
def sectionSlices (toc : List TocItem) (chunks : List ContentChunk) :
    List (List Char × List ContentChunk) :=
  sectionsGo toc chunks (toc.length - 1) 0 0

/-- Embedding of `content.reduce((m, c) => Math.max(m, c.page || 0), 0) || 0`
(line 148); with `page : Nat` the inner and outer `|| 0` are identities. -/
def maxPageOf (chunks : List ContentChunk) : Nat :=
  chunks.foldl (fun m c => max m c.page) 0

/-- Embedding of the synthesized two-entry TOC of lines 147-161, built when
metadata is missing or its TOC is empty: Content at page 1 and End at
`maxPage || content.length`. -/
def synthToc (chunks : List ContentChunk) : List TocItem :=
  let mp := maxPageOf chunks
  let fallback := if mp = 0 then chunks.length else mp
  [⟨"Content".data, some 1, fallback⟩, ⟨"End".data, some fallback, fallback⟩]

/-- Three transcribed chunks with page numbers 1, 2, 3: the input of the
evaluation showing the synthesized TOC drops the last chunk. -/
def demoChunks : List ContentChunk :=
  [⟨0, 1, "alpha".data⟩, ⟨1, 2, "beta".data⟩, ⟨2, 3, "gamma".data⟩]

/-! ## Capture state machine

Source: the capture script (src/unnamed/part_000), lines 422-515.  The
environment is abstracted as three oracle streams consumed by successive
calls: `state` for getBrState observations, `shot` for the content hash of
successive screenshots (sha1 is deterministic, so a screenshot is identified
with its hash), and `adv` for the reported outcome of successive advanceOnce
calls (advanceOnce is modelled abstractly by whether it detects a change;
its internal check is embedded separately as `advCheck`).
-/

/-- The part of a getBrState observation the loop reads: `page` may be
undefined, `sig` is the content signature string. -/
structure BrSt where
  page : Option Int
  sig : List Char
  deriving DecidableEq, Repr

/-- Oracle streams standing for the remote viewer. -/
structure Env where
  state : Nat → BrSt
  shot : Nat → List Char
  adv : Nat → Bool

/-- A record pushed onto `pages` (part_000 line 487, the fields the
termination logic reads). -/
structure PageRec where
  index : Nat
  page : Int
  deriving DecidableEq, Repr

/-- The mutable state of the capture loop, plus the oracle cursors:
`sIdx`, `hIdx`, `aIdx` count the getBrState calls, screenshots and
advanceOnce calls made so far; `dupAdv` counts the direct next/click
advance attempts made inside the duplicate-hash branch. -/
structure LoopSt where
  sIdx : Nat
  hIdx : Nat
  aIdx : Nat
  dupAdv : Nat
  lastSig : List Char
  lastPageNum : Int
  lastHash : List Char
  pages : List PageRec
  deriving DecidableEq, Repr

/-- Embedding of the change check inside advanceOnce (part_000 lines 432,
442, 447): `(st.page ?? -1) !== prevPage || (st.sig && st.sig !== prevSig)`.
An empty signature is falsy in JS, so the signature signal is suppressed
when the signature is empty. -/
def advCheck (st : BrSt) (prevPage : Int) (prevSig : List Char) : Bool :=
  (st.page.getD (-1) != prevPage) || ((!st.sig.isEmpty) && st.sig != prevSig)

/-- Embedding of the loop-start stagnation test (part_000 lines 452 and
460): `st.sig === lastSig || (st.page ?? -1) === lastPageNum`.  The loop
treats the viewer as NOT advanced when this is true. -/
def loopStagnant (st : BrSt) (lastSig : List Char) (lastPageNum : Int) : Bool :=
  st.sig == lastSig || st.page.getD (-1) == lastPageNum

/-- Reference model following the specification text (not the source): the
viewer has advanced iff the page number changed or the content signature
changed, a plain logical OR of the two signals. -/
def hasAdvancedSpec (prev curr : BrSt) : Bool :=
  curr.page != prev.page || curr.sig != prev.sig

/-- Embedding of the AdvanceRetrying while-loop, part_000 lines 453-459:
up to `fuel = maxVerifyRetries - tried` further advanceOnce calls; a
successful call refreshes the observation (one more getBrState) and leaves
the loop with `tried` unchanged; a failed call (followed by the borrow
re-try, which has no modelled observable) increments `tried`.  Returns the
advance cursor, the state cursor, the current observation and `tried`. -/
def advRetry (env : Env) (aIdx sIdx : Nat) (st : BrSt) (tried : Nat) :
    Nat → Nat × Nat × BrSt × Nat
  | 0 => (aIdx, sIdx, st, tried)
  | fuel + 1 =>
      if env.adv aIdx then (aIdx + 1, sIdx + 1, env.state sIdx, tried)
      else advRetry env (aIdx + 1) sIdx st (tried + 1) fuel

/-- Embedding of the capture half of a loop iteration, part_000 lines
466-494: screenshot, duplicate-hash guard (lines 470-479: when the hash
equals the previous accepted hash and this is not the first iteration, one
direct next/click advance attempt and exactly one recapture, accepted
unconditionally), page record push, tracker updates (`lastSig` keeps its
old value when the observation's signature is empty, line 489), and the
single trailing advanceOnce of line 494. -/
def capturePart (env : Env) (i : Nat) (ls : LoopSt) (st : BrSt)
    (a s : Nat) : LoopSt × Bool :=
  let h1 := env.shot ls.hIdx
  let dup : Bool := (h1 == ls.lastHash) && decide (0 < i)
  let hash := if dup then env.shot (ls.hIdx + 1) else h1
  let h2 := if dup then ls.hIdx + 2 else ls.hIdx + 1
  let da := if dup then ls.dupAdv + 1 else ls.dupAdv
  let pageNum := st.page.getD (Int.ofNat (i + 1))
  ({ sIdx := s, hIdx := h2, aIdx := a + 1, dupAdv := da,
     lastSig := if st.sig.isEmpty then ls.lastSig else st.sig,
     lastPageNum := pageNum, lastHash := hash,
     pages := ls.pages ++ [⟨i, pageNum⟩] }, true)

/-- Embedding of one iteration of the capture for-loop, part_000 lines
450-494.  The boolean is false when the iteration hits the early
`break` of line 462 (stagnation persisting after the retry bound); the
returned state then carries the advanced oracle cursors but no new page. -/
def iterOnce (env : Env) (maxVR : Nat) (i : Nat) (ls : LoopSt) :
    LoopSt × Bool :=
  let st0 := env.state ls.sIdx
  let s1 := ls.sIdx + 1
  if 0 < i ∧ loopStagnant st0 ls.lastSig ls.lastPageNum then
    let r := advRetry env ls.aIdx s1 st0 0 maxVR
    let a2 := r.1
    let s2 := r.2.1
    let st := r.2.2.1
    let tried := r.2.2.2
    if maxVR ≤ tried ∧ loopStagnant st ls.lastSig ls.lastPageNum then
      ({ ls with sIdx := s2, aIdx := a2 }, false)
    else capturePart env i ls st a2 s2
  else capturePart env i ls st0 ls.aIdx s1

/-- The capture for-loop, part_000 line 449: `i` runs from 0 while
`i < captureUntil` (`fuel = captureUntil - i` counts the remaining
iterations) unless an iteration breaks early. -/
def capLoopF (env : Env) (maxVR : Nat) : Nat → Nat → LoopSt → LoopSt
  | _, 0, ls => ls
  | i, fuel + 1, ls =>
      let r := iterOnce env maxVR i ls
      if r.2 then capLoopF env maxVR (i + 1) fuel r.1 else r.1

/-- Initial trackers, part_000 lines 423-425: empty lastSig, page -1,
empty lastHash, no pages, all oracle cursors at 0. -/
def initLS : LoopSt :=
  ⟨0, 0, 0, 0, [], -1, [], []⟩

/-- The whole capture loop from the initial state. -/
def captureIa (env : Env) (captureUntil maxVR : Nat) : LoopSt :=
  capLoopF env maxVR 0 captureUntil initLS

/-- Embedding of the derived total, part_000 line 506:
`pages.length ? pages[pages.length - 1]!.page : total`. -/
def finalTotal (ls : LoopSt) (total : Int) : Int :=
  match ls.pages.getLast? with
  | some p => p.page
  | none => total

/-- Fully stagnant witness environment: constant observation (page 7,
signature "s"), constant screenshot hash, every advance attempt fails. -/
def envStagnant : Env :=
  ⟨fun _ => ⟨some 7, ['s']⟩, fun _ => ['h'], fun _ => false⟩

/-- Witness environment for the duplicate-hash branch: the first screenshot
repeats the hash h, the recapture returns a fresh hash k. -/
def envDup : Env :=
  ⟨fun _ => ⟨some 3, ['s']⟩, fun t => if t = 0 then ['h'] else ['k'],
   fun _ => true⟩

/-- Witness loop state entering iteration 1 of `envDup`: the previous
capture accepted hash h, saw signature "z" and page 2 (both different from
the upcoming observation, so the stagnation branch is not taken). -/
def lsDup : LoopSt :=
  ⟨0, 0, 0, 0, ['z'], 2, ['h'], [⟨0, 2⟩]⟩

/-! ## Page-identity round trip through filenames

Capture side (part_000 lines 481-487): the screenshot file is named
zeroPad(i) + "-" + zeroPad(pageNum) + ".png" with pad width
`indexPad = max(2, String(captureUntil).length)`.

Transcription side (transcribe-book-content.ts line 31): the name is parsed
with `screenshot.match(/0*(\d+)-\0*(\d+).png/)` — note `\0` matches the NUL
character, not a zero — and the two captured groups go through
`Number.parseInt(…, 10)`.  The parser below embeds that regex over the
filename (the directory prefix `out/<id>/pages/` contains no match for the
identifiers considered).
-/

/-- Decimal digit characters. -/
def digitChar : Nat → Char
  | 0 => '0' | 1 => '1' | 2 => '2' | 3 => '3' | 4 => '4'
  | 5 => '5' | 6 => '6' | 7 => '7' | 8 => '8' | 9 => '9'
  | _ => '*'

/-- Decimal representation of a non-negative integer, as produced by the JS
template literal for a non-negative Number. -/
def natDigs (n : Nat) : List Char :=
  if n < 10 then [digitChar n]
  else natDigs (n / 10) ++ [digitChar (n % 10)]
termination_by n
decreasing_by exact Nat.div_lt_self (by omega) (by omega)

/-- `Number.parseInt(s, 10)` on a string of decimal digits. -/
def digitsToNat (l : List Char) : Nat :=
  l.foldl (fun a c => a * 10 + (c.toNat - 48)) 0

/-- `String.prototype.padStart(w, "0")`. -/
def padZeros (w : Nat) (s : List Char) : List Char :=
  List.replicate (w - s.length) '0' ++ s

/-- The screenshot filename built at part_000 lines 481-487 (basename). -/
def shotName (w i p : Nat) : List Char :=
  padZeros w (natDigs i) ++ '-' :: (padZeros w (natDigs p) ++ (".png".data))

/-- `indexPad = Math.max(2, String(captureUntil).length)`, line 413. -/
def indexPad (captureUntil : Nat) : Nat :=
  max 2 (natDigs captureUntil).length

/-- JS `.` (without the s flag): any character except a line terminator. -/
def isDotChar (c : Char) : Bool :=
  !(c == '\n' || c == '\r' || c.toNat == 0x2028 || c.toNat == 0x2029)

/-- The `.png` tail of the pattern: one dot-class character, then the
letters p n g; the regex has no end anchor so anything may follow. -/
def tailMatch : List Char → Bool
  | c :: 'p' :: 'n' :: 'g' :: _ => isDotChar c
  | _ => false

/-- Greedy `(\d+)` followed by `.png`: the digit group is tried longest
first (`accRev` holds the current candidate reversed); on failure of the
tail the last digit is given back to the input. -/
def backtrackNumR : List Char → List Char → Option (List Char)
  | [], _ => none
  | c :: moreRev, rest =>
      if tailMatch rest then some ((c :: moreRev).reverse)
      else backtrackNumR moreRev (c :: rest)

/-- Match of `/0*(\d+)-\0*(\d+).png/` at one position, following the
backtracking semantics of the regex: greedy `0*` takes the zeros; if no
digit follows them, `0*` gives back exactly one zero which then satisfies
`\d+` (giving back more zeros cannot change the continuation point, so one
step decides); otherwise `\d+` takes the whole remaining digit run (a
shorter run would leave `-` matching a digit).  After `-`, `\0*` skips NUL
characters (backtracking it would put a digit requirement on a NUL), then
greedy `(\d+)` with the `.png` tail as continuation. -/
def matchAt (s : List Char) : Option (Nat × Nat) :=
  let zs := s.takeWhile (fun c => c == '0')
  let r1 := s.dropWhile (fun c => c == '0')
  let d1 := r1.takeWhile isDigitCh
  let r2 := r1.dropWhile isDigitCh
  let g1r : Option (List Char × List Char) :=
    if d1.isEmpty then (if zs.isEmpty then none else some (['0'], r1))
    else some (d1, r2)
  match g1r with
  | none => none
  | some (g1, r) =>
      match r with
      | '-' :: r3 =>
          let r4 := r3.dropWhile (fun c => c == '\x00')
          let d2 := r4.takeWhile isDigitCh
          let r5 := r4.dropWhile isDigitCh
          match backtrackNumR d2.reverse r5 with
          | some g2 => some (digitsToNat g1, digitsToNat g2)
          | none => none
      | _ => none

/-- Embedding of `screenshot.match(…)`: the leftmost position with a match
wins, as with an unanchored JS regex. -/
def scanMatch : List Char → Option (Nat × Nat)
  | [] => none
  | c :: t =>
      match matchAt (c :: t) with
      | some r => some r
      | none => scanMatch t

/-! # Theorems -/

/-- Helper: characters produced by `nlToSpace` are never newlines. -/
theorem nlToSpace_no_nl (l : List Char) : ∀ c ∈ nlToSpace l, c ≠ '\n' := by
  intro c hc
  rcases List.mem_map.mp hc with ⟨a, _, rfl⟩
  by_cases h : a = '\n' <;> simp [h]

/-- Helper: `trimJS` only keeps characters of its input. -/
theorem trimJS_subset (l : List Char) : ∀ c ∈ trimJS l, c ∈ l := by
  intro c hc
  unfold trimJS at hc
  rw [List.mem_reverse] at hc
  have h1 := (List.dropWhile_sublist (l := (l.dropWhile isWs).reverse) isWs).mem hc
  rw [List.mem_reverse] at h1
  exact (List.dropWhile_sublist (l := l) isWs).mem h1

/-- C1. The assembler's per-chunk normalization does NOT preserve paragraph
breaks: after `/\n{2,}/g → "\n\n"` the subsequent `/\n/g → " "` replaces the
two remaining newlines by two spaces, so no newline at all survives into the
output, contradicting the adjacent source comment "preserve paragraph breaks,
fold single newlines into spaces".  On the spec's own example the output is
"line one line two␣␣line three" (two spaces), not
"line one line two\n\nline three". -/
theorem assembler_fold_drops_paragraph_break :
    foldChunkText ("line one\nline two\n\nline three".data)
      = ("line one line two  line three".data)
    ∧ foldChunkText ("line one\nline two\n\nline three".data)
      ≠ ("line one line two\n\nline three".data)
    ∧ ∀ l : List Char, '\n' ∉ foldChunkText l := by
  refine ⟨by decide, by decide, ?_⟩
  intro l hmem
  have h1 := trimJS_subset _ _ hmem
  exact nlToSpace_no_nl _ _ h1 rfl

/-- C2. The per-image retry loop is NOT bounded by the configured retry
bound: the empty-cleaned-text branch retries without consulting the bound,
so a recognition service that keeps returning responses that clean to empty
(for example the empty response) keeps the loop running forever.  For every
n, after n such responses the loop has made n attempts and is still looping,
with no chunk produced and no permanent failure recorded — in particular for
any n exceeding the bound. -/
theorem ocr_empty_loop_unbounded :
    ∀ (n maxRetries retries : Nat),
      runOcr maxRetries retries (List.replicate n ([] : List Char))
        = ⟨.stillLooping, n, []⟩ := by
  intro n
  induction n with
  | zero => intro maxRetries retries; rfl
  | succ k ih =>
      intro maxRetries retries
      show runOcr maxRetries retries ([] :: List.replicate k []) = _
      rw [runOcr]
      simp [ih maxRetries (retries + 1), cleanResponse, stripFirstBareNum,
        stripLineLeading, stripLineTrailing, bnGo, slGo, stGo]

theorem cleanResponse_rawRefusal : cleanResponse rawRefusal = rawRefusal := by
  decide

theorem rawRefusal_not_empty : rawRefusal.isEmpty = false := by decide

theorem rawRefusal_is_refusal :
    rawRefusal.length < 100 ∧ imSorryTest rawRefusal = true := by decide

/-- On a stream of permanent refusals the loop, entered with attempt counter
`r` and bound `R`, consumes exactly `R - r` further responses, records the
backoff delays `min(500*a, 5000)` for `a = r+1, …, R-1`, and throws. -/
theorem runOcr_refusal_aux (R : Nat) :
    ∀ (k r : Nat), r < R → R ≤ r + k →
      runOcr R r (List.replicate k rawRefusal)
        = ⟨.failed, R - r,
            (List.range' (r + 1) (R - r - 1)).map (fun a => min (500 * a) 5000)⟩ := by
  intro k
  induction k with
  | zero => intro r h1 h2; omega
  | succ k ih =>
      intro r h1 h2
      rw [List.replicate_succ]
      simp only [runOcr, cleanResponse_rawRefusal, rawRefusal_not_empty,
        Bool.false_eq_true, if_false]
      rw [if_pos rawRefusal_is_refusal]
      by_cases hc : R ≤ r + 1
      · rw [if_pos hc]
        have hr1 : R - r = 1 := by omega
        rw [hr1]
        rfl
      · rw [if_neg hc, ih (r + 1) (by omega) (by omega)]
        dsimp only
        simp only [OcrTrace.mk.injEq]
        refine ⟨trivial, by omega, ?_⟩
        have h3 : R - r - 1 = (R - r - 2) + 1 := by omega
        rw [h3, List.range'_succ, List.map_cons]
        congr 2

/-- C5. Given retry bound `R ≥ 1` and a recognition service that permanently
returns refusal-shaped responses for one image, the per-image loop makes
exactly `R` recognition attempts, backs off `min(500ms*attempt, 5000ms)`
between consecutive attempts, then fails permanently; the image yields no
chunk (in particular no empty-text chunk) and is dropped by the
`.filter(Boolean)` collection step, while any other image's chunk is kept. -/
theorem ocr_refusal_bounded (R : Nat) (hR : 1 ≤ R) :
    runOcr R 0 (List.replicate R rawRefusal)
      = ⟨.failed, R, (List.range' 1 (R - 1)).map (fun a => min (500 * a) 5000)⟩
    ∧ processImage R (List.replicate R rawRefusal) = none
    ∧ ∀ good : List Char,
        collectContent [processImage R (List.replicate R rawRefusal), some good]
          = [good] := by
  have h := runOcr_refusal_aux R R 0 (by omega) (by omega)
  simp only [Nat.sub_zero, Nat.zero_add] at h
  refine ⟨h, ?_, ?_⟩
  · simp [processImage, h]
  · intro good
    simp [collectContent, processImage, h]

/-- Witness for C5 at `R = 3`: three attempts, delays 500ms then 1000ms,
permanent failure, chunk excluded while a sibling chunk survives. -/
theorem ocr_refusal_bounded_witness :
    runOcr 3 0 (List.replicate 3 rawRefusal) = ⟨.failed, 3, [500, 1000]⟩
    ∧ collectContent [processImage 3 (List.replicate 3 rawRefusal),
        some ("ok".data)] = ["ok".data] := by
  have h := ocr_refusal_bounded 3 (by decide)
  exact ⟨h.1.trans (by decide), h.2.2 ("ok".data)⟩

/-- C9 counterexample.  The cleaning step removes a bare page-number line
that appears AFTER other content: the `m` flag makes `^` match after every
newline and the scan takes the first match anywhere, so "hello\n42\nworld"
cleans to "hello\nworld", while the claim-faithful reference (removal only
of a leading bare-number line, per-line trim) keeps the 42 line. -/
theorem clean_removes_non_leading_number :
    cleanResponse ("hello\n42\nworld".data) = ("hello\nworld".data)
    ∧ specClean ("hello\n42\nworld".data) = ("hello\n42\nworld".data)
    ∧ cleanResponse ("hello\n42\nworld".data)
        ≠ specClean ("hello\n42\nworld".data) := by
  refine ⟨by decide, by decide, by decide⟩

/-- C3 counterexample.  The loop-start check does NOT implement the claimed
logical OR: with the signature changed ("a" → "b") but the page number
unchanged (5), the loop still classifies the observation as stagnant
(`loopStagnant = true`, so advancement is reported false), while the
claimed detector reports advancement; moreover advanceOnce's own check
misses a signature change to the empty signature (falsy in JS). -/
theorem loop_change_check_not_or :
    loopStagnant ⟨some 5, ['b']⟩ ['a'] 5 = true
    ∧ hasAdvancedSpec ⟨some 5, ['a']⟩ ⟨some 5, ['b']⟩ = true
    ∧ advCheck ⟨some 5, []⟩ 5 ['a'] = false
    ∧ hasAdvancedSpec ⟨some 5, ['a']⟩ ⟨some 5, []⟩ = true := by
  decide

/-- C3 amended.  The two change checks characterized: advanceOnce reports
advancement iff the page number (undefined read as -1) changed, or the
signature is nonempty and changed; the loop-start check reports advancement
(non-stagnation) only when BOTH the page number and the signature changed;
and both checks report no advancement when page number and signature are
both identical to the previous observation. -/
theorem advance_checks_characterization :
    (∀ (st : BrSt) (p : Int) (s : List Char),
        advCheck st p s = true ↔
          (st.page.getD (-1) ≠ p ∨ (st.sig ≠ [] ∧ st.sig ≠ s)))
    ∧ (∀ (st : BrSt) (s : List Char) (p : Int),
        loopStagnant st s p = false ↔ (st.sig ≠ s ∧ st.page.getD (-1) ≠ p))
    ∧ (∀ (st : BrSt) (s : List Char) (p : Int),
        st.sig = s → st.page.getD (-1) = p →
          advCheck st p s = false ∧ loopStagnant st s p = true) := by
  refine ⟨?_, ?_, ?_⟩
  · intro st p s
    simp [advCheck, List.isEmpty_iff]
  · intro st s p
    simp [loopStagnant, and_comm]
  · intro st s p h1 h2
    simp [advCheck, loopStagnant, h1, h2]

/-- C4. `computeNextIndex` equals the specification boundary (first chunk
whose page reaches the next entry's start page, else the end of the chunk
list) clamped from below by the current cursor, and in particular it never
decreases the cursor — also when TOC start pages are non-monotonic.  The
hypothesis `cur ≤ chunks.length` is the loop invariant of the sectioning
loop (the cursor starts at 0 and every boundary is at most the list
length). -/
theorem computeNextIndex_spec (toc : List TocItem) (chunks : List ContentChunk)
    (cur i : Nat) (h : cur ≤ chunks.length) :
    computeNextIndex toc chunks cur i = max cur (boundarySpec toc chunks i)
    ∧ cur ≤ computeNextIndex toc chunks cur i := by
  unfold computeNextIndex boundarySpec
  cases htoc : toc.get? (i + 1) with
  | none =>
      simp only [Option.none_bind]
      exact ⟨(Nat.max_eq_right h).symm, h⟩
  | some nxt =>
      simp only [Option.some_bind]
      cases hpage : nxt.page with
      | none =>
          exact ⟨(Nat.max_eq_right h).symm, h⟩
      | some p =>
          dsimp only
          constructor
          · by_cases hlt : firstIdxGe chunks p < cur
            · rw [if_pos hlt, Nat.max_eq_left (Nat.le_of_lt hlt)]
            · rw [if_neg hlt, Nat.max_eq_right (by omega)]
          · by_cases hlt : firstIdxGe chunks p < cur
            · rw [if_pos hlt]
            · rw [if_neg hlt]; omega

/-- Witness for C4 on a non-monotonic TOC (entry A starts at page 5, the
next entry B at page 1): the raw boundary would be chunk index 0, but the
result is clamped to the cursor 2 and does not rewind. -/
theorem computeNextIndex_spec_witness :
    computeNextIndex [⟨"A".data, some 5, 9⟩, ⟨"B".data, some 1, 9⟩]
        [⟨0, 1, "a".data⟩, ⟨1, 2, "b".data⟩, ⟨2, 3, "c".data⟩] 2 0
      = max 2 (boundarySpec [⟨"A".data, some 5, 9⟩, ⟨"B".data, some 1, 9⟩]
          [⟨0, 1, "a".data⟩, ⟨1, 2, "b".data⟩, ⟨2, 3, "c".data⟩] 0)
    ∧ 2 ≤ computeNextIndex [⟨"A".data, some 5, 9⟩, ⟨"B".data, some 1, 9⟩]
        [⟨0, 1, "a".data⟩, ⟨1, 2, "b".data⟩, ⟨2, 3, "c".data⟩] 2 0 :=
  computeNextIndex_spec _ _ 2 0 (by decide)

/-- C6. The synthesized two-entry TOC does NOT make the Content section span
the whole chunk range: with chunks at pages 1, 2, 3 the End entry sits at
maxPage = 3, the boundary is the FIRST chunk whose page is at least 3, and
the sectioning loop emits only the chunks before it — the page-3 chunk
appears in no section and is silently dropped from the document. -/
theorem synth_toc_drops_max_page_chunk :
    sectionSlices (synthToc demoChunks) demoChunks
      = [("Content".data, [⟨0, 1, "alpha".data⟩, ⟨1, 2, "beta".data⟩])]
    ∧ ∀ s ∈ sectionSlices (synthToc demoChunks) demoChunks,
        (⟨2, 3, "gamma".data⟩ : ContentChunk) ∉ s.2 := by
  constructor <;> decide

/-- Helper: an iteration either breaks early or is a `capturePart` step. -/
theorem iterOnce_shape (env : Env) (maxVR i : Nat) (ls : LoopSt) :
    (iterOnce env maxVR i ls).2 = false
    ∨ ∃ st a s, iterOnce env maxVR i ls = capturePart env i ls st a s := by
  unfold iterOnce
  dsimp only
  split
  · split
    · left; rfl
    · right; exact ⟨_, _, _, rfl⟩
  · right; exact ⟨_, _, _, rfl⟩

/-- Helper: screenshot and duplicate-advance counts of a capture step. -/
theorem capturePart_counts (env : Env) (i : Nat) (ls : LoopSt) (st : BrSt)
    (a s : Nat) :
    ((capturePart env i ls st a s).1.hIdx
      = ls.hIdx + (if env.shot ls.hIdx = ls.lastHash ∧ 0 < i then 2 else 1))
    ∧ ((capturePart env i ls st a s).1.dupAdv
      = ls.dupAdv + (if env.shot ls.hIdx = ls.lastHash ∧ 0 < i then 1 else 0)) := by
  have hprop : ((env.shot ls.hIdx == ls.lastHash) && decide (0 < i)) = true
      ↔ (env.shot ls.hIdx = ls.lastHash ∧ 0 < i) := by
    simp
  by_cases hdup : env.shot ls.hIdx = ls.lastHash ∧ 0 < i
  · have hb := hprop.mpr hdup
    simp [capturePart, hb, if_pos hdup]
  · have hb : ((env.shot ls.hIdx == ls.lastHash) && decide (0 < i)) = false := by
      rcases hc : ((env.shot ls.hIdx == ls.lastHash) && decide (0 < i)) with _ | _
      · rfl
      · exact absurd (hprop.mp hc) hdup
    simp [capturePart, hb, if_neg hdup]

/-- C7.  In any iteration that does not break early, the state machine takes
exactly one extra screenshot and one extra direct advance attempt when the
first screenshot's hash equals the previous accepted hash and this is not
the first iteration (`0 < i`), and exactly one screenshot and no extra
advance otherwise — in particular never more than one recapture, and never a
recapture on the first capture, where the `0 < i` conjunct is false. -/
theorem dup_hash_single_recapture (env : Env) (maxVR i : Nat) (ls : LoopSt)
    (h : (iterOnce env maxVR i ls).2 = true) :
    (iterOnce env maxVR i ls).1.hIdx
      = ls.hIdx + (if env.shot ls.hIdx = ls.lastHash ∧ 0 < i then 2 else 1)
    ∧ (iterOnce env maxVR i ls).1.dupAdv
      = ls.dupAdv + (if env.shot ls.hIdx = ls.lastHash ∧ 0 < i then 1 else 0) := by
  rcases iterOnce_shape env maxVR i ls with hf | ⟨st, a, s, heq⟩
  · rw [hf] at h
    simp at h
  · rw [heq]
    exact capturePart_counts env i ls st a s

/-- Witness for C7: entering iteration 1 with last accepted hash h, the
environment returns hash h again on the first screenshot and a fresh hash on
the recapture; exactly one recapture and one extra advance happen. -/
theorem dup_hash_single_recapture_witness :
    (iterOnce envDup 5 1 lsDup).2 = true
    ∧ (iterOnce envDup 5 1 lsDup).1.hIdx = lsDup.hIdx + 2
    ∧ (iterOnce envDup 5 1 lsDup).1.dupAdv = lsDup.dupAdv + 1 := by
  have ht : (iterOnce envDup 5 1 lsDup).2 = true := by decide
  have h := dup_hash_single_recapture envDup 5 1 lsDup ht
  exact ⟨ht, h.1.trans (by decide), h.2.trans (by decide)⟩

/-- Helper: when every advance attempt fails, the AdvanceRetrying loop burns
its whole fuel, advancing the advance cursor by `fuel` and leaving the
observation unchanged. -/
theorem advRetry_all_fail (env : Env) (hadv : ∀ t, env.adv t = false) :
    ∀ (fuel aIdx sIdx : Nat) (st : BrSt) (tried : Nat),
      advRetry env aIdx sIdx st tried fuel
        = (aIdx + fuel, sIdx, st, tried + fuel) := by
  intro fuel
  induction fuel with
  | zero => intro aIdx sIdx st tried; simp [advRetry]
  | succ f ih =>
      intro aIdx sIdx st tried
      rw [advRetry]
      simp only [hadv, Bool.false_eq_true, if_false]
      rw [ih]
      simp [Prod.ext_iff]
      omega

/-- C8.  In a fully stagnant environment (constant observation, every
advance strategy reporting no change), the capture loop captures the first
page, then in the next iteration retries advancing exactly `maxVR` times
(the configured IA_MAX_RETRIES bound; the advance cursor ends at
`maxVR + 1`, the retries plus the single post-capture advance) and stops
early via the controlled break — returning its state normally with fewer
pages than requested — and the derived document total equals the page
number of the last (here: only) successfully captured page. -/
theorem stagnation_early_stop (env : Env) (st₀ : BrSt) (cu maxVR : Nat)
    (hst : ∀ t, env.state t = st₀) (hadv : ∀ t, env.adv t = false)
    (hcu : 2 ≤ cu) :
    (captureIa env cu maxVR).pages = [⟨0, st₀.page.getD 1⟩]
    ∧ (captureIa env cu maxVR).aIdx = maxVR + 1
    ∧ (captureIa env cu maxVR).pages.length < cu
    ∧ ∀ total : Int, finalTotal (captureIa env cu maxVR) total
        = st₀.page.getD 1 := by
  have hsig : (if st₀.sig.isEmpty then ([] : List Char) else st₀.sig)
      = st₀.sig := by
    cases h : st₀.sig <;> simp
  have h0 : iterOnce env maxVR 0 initLS
      = (⟨1, 1, 1, 0, st₀.sig, st₀.page.getD 1, env.shot 0,
          [⟨0, st₀.page.getD 1⟩]⟩, true) := by
    unfold iterOnce capturePart initLS
    simp [hst, hsig]
  have h1 : iterOnce env maxVR 1
      ⟨1, 1, 1, 0, st₀.sig, st₀.page.getD 1, env.shot 0,
        [⟨0, st₀.page.getD 1⟩]⟩
      = (⟨2, 1, 1 + maxVR, 0, st₀.sig, st₀.page.getD 1, env.shot 0,
          [⟨0, st₀.page.getD 1⟩]⟩, false) := by
    unfold iterOnce
    simp only [hst]
    rw [advRetry_all_fail env hadv]
    simp [loopStagnant]
  obtain ⟨k, hk⟩ : ∃ k, cu = k + 2 := ⟨cu - 2, by omega⟩
  subst hk
  have hcap : captureIa env (k + 2) maxVR
      = ⟨2, 1, 1 + maxVR, 0, st₀.sig, st₀.page.getD 1, env.shot 0,
          [⟨0, st₀.page.getD 1⟩]⟩ := by
    show capLoopF env maxVR 0 (k + 1 + 1) initLS = _
    rw [capLoopF, h0]
    show capLoopF env maxVR 1 (k + 1) _ = _
    rw [capLoopF, h1]
    rfl
  refine ⟨?_, ?_, ?_, ?_⟩
  · rw [hcap]
  · rw [hcap]; show 1 + maxVR = maxVR + 1; omega
  · rw [hcap]; show 1 < k + 2; omega
  · intro total; rw [hcap]; rfl

/-- Witness for C8: page 7 on screen, bound IA_MAX_RETRIES = 10, requested
5 pages; one page captured, 10 failed advance retries plus the one
post-capture advance, early stop, derived total 7. -/
theorem stagnation_early_stop_witness :
    (captureIa envStagnant 5 10).pages = [⟨0, 7⟩]
    ∧ (captureIa envStagnant 5 10).aIdx = 11
    ∧ (captureIa envStagnant 5 10).pages.length < 5
    ∧ finalTotal (captureIa envStagnant 5 10) 9999 = 7 := by
  have h := stagnation_early_stop envStagnant ⟨some 7, ['s']⟩ 5 10
      (fun _ => rfl) (fun _ => rfl) (by omega)
  exact ⟨h.1, h.2.1, h.2.2.1, h.2.2.2 9999⟩

/-- Helper: takeWhile passes over a prefix on which the predicate holds. -/
theorem takeWhile_app_all (p : Char → Bool) :
    ∀ (a b : List Char), (∀ c ∈ a, p c = true) →
      (a ++ b).takeWhile p = a ++ b.takeWhile p := by
  intro a
  induction a with
  | nil => intro b _; rfl
  | cons x xs ih =>
      intro b h
      rw [List.cons_append, List.takeWhile_cons_of_pos (h x (by simp)),
        ih b (fun c hc => h c (by simp [hc]))]
      rfl

/-- Helper: dropWhile consumes a prefix on which the predicate holds. -/
theorem dropWhile_app_all (p : Char → Bool) :
    ∀ (a b : List Char), (∀ c ∈ a, p c = true) →
      (a ++ b).dropWhile p = b.dropWhile p := by
  intro a
  induction a with
  | nil => intro b _; rfl
  | cons x xs ih =>
      intro b h
      rw [List.cons_append, List.dropWhile_cons_of_pos (h x (by simp)),
        ih b (fun c hc => h c (by simp [hc]))]

theorem digitChar_digit (n : Nat) (h : n < 10) : isDigitCh (digitChar n) = true := by
  interval_cases n <;> decide

theorem digitChar_toNat (n : Nat) (h : n < 10) : (digitChar n).toNat = 48 + n := by
  interval_cases n <;> decide

theorem natDigs_ne_nil (n : Nat) : natDigs n ≠ [] := by
  rw [natDigs]
  split <;> simp

theorem natDigs_digits (n : Nat) : ∀ c ∈ natDigs n, isDigitCh c = true := by
  induction n using Nat.strong_induction_on with
  | _ n ih =>
      rw [natDigs]
      split
      · next h =>
          intro c hc
          simp only [List.mem_singleton] at hc
          subst hc
          exact digitChar_digit n h
      · next h =>
          intro c hc
          rw [List.mem_append] at hc
          rcases hc with hc | hc
          · exact ih (n / 10) (Nat.div_lt_self (by omega) (by omega)) c hc
          · simp only [List.mem_singleton] at hc
            subst hc
            exact digitChar_digit (n % 10) (Nat.mod_lt _ (by omega))

theorem natDigs_head_ne_zero (n : Nat) (hn : n ≠ 0) :
    ∃ c rest, natDigs n = c :: rest ∧ (c == '0') = false := by
  induction n using Nat.strong_induction_on with
  | _ n ih =>
      rw [natDigs]
      split
      · next h =>
          refine ⟨digitChar n, [], rfl, ?_⟩
          interval_cases n
          · exact absurd rfl hn
          all_goals decide
      · next h =>
          have hd : n / 10 ≠ 0 := by omega
          obtain ⟨c, rest, heq, hc⟩ :=
            ih (n / 10) (Nat.div_lt_self (by omega) (by omega)) hd
          exact ⟨c, rest ++ [digitChar (n % 10)], by rw [heq]; rfl, hc⟩

theorem natDigs_zero : natDigs 0 = ['0'] := by
  rw [natDigs]
  norm_num
  rfl

theorem digitsToNat_natDigs (n : Nat) : digitsToNat (natDigs n) = n := by
  induction n using Nat.strong_induction_on with
  | _ n ih =>
      rw [natDigs]
      split
      · next h =>
          show digitsToNat [digitChar n] = n
          unfold digitsToNat
          simp [digitChar_toNat n h]
      · next h =>
          show digitsToNat (natDigs (n / 10) ++ [digitChar (n % 10)]) = n
          unfold digitsToNat
          rw [List.foldl_append]
          have h1 := ih (n / 10) (Nat.div_lt_self (by omega) (by omega))
          unfold digitsToNat at h1
          rw [h1, List.foldl_cons, List.foldl_nil,
            digitChar_toNat (n % 10) (Nat.mod_lt _ (by omega))]
          omega

theorem digitsToNat_zeros (k : Nat) (l : List Char) :
    digitsToNat (List.replicate k '0' ++ l) = digitsToNat l := by
  induction k with
  | zero => rfl
  | succ m ih =>
      show digitsToNat ('0' :: (List.replicate m '0' ++ l)) = _
      unfold digitsToNat at ih ⊢
      rw [List.foldl_cons]
      exact ih

/-- Helper: a nonempty list is not `isEmpty`. -/
theorem isEmpty_false_of_ne_nil {l : List Char} (h : l ≠ []) :
    l.isEmpty = false := by
  cases l with
  | nil => exact absurd rfl h
  | cons _ _ => rfl

/-- Helper: parseInt ignores the zero padding. -/
theorem digitsToNat_padZeros (w p : Nat) :
    digitsToNat (padZeros w (natDigs p)) = p := by
  unfold padZeros
  rw [digitsToNat_zeros, digitsToNat_natDigs]

/-- Helper: the second capture group of the filename regex takes the whole
zero-padded page number, with the `.png` tail matching at once. -/
theorem second_group_eval (w p : Nat) :
    backtrackNumR
      (((padZeros w (natDigs p) ++ (".png".data)).dropWhile
          (fun c => c == '\x00')).takeWhile isDigitCh).reverse
      (((padZeros w (natDigs p) ++ (".png".data)).dropWhile
          (fun c => c == '\x00')).dropWhile isDigitCh)
      = some (padZeros w (natDigs p)) := by
  have hC : ∀ c ∈ padZeros w (natDigs p), isDigitCh c = true := by
    intro c hc
    unfold padZeros at hc
    rw [List.mem_append] at hc
    rcases hc with hc | hc
    · have h := List.eq_of_mem_replicate hc
      subst h
      decide
    · exact natDigs_digits p c hc
  have hCne : padZeros w (natDigs p) ≠ [] := by
    unfold padZeros
    intro h
    rw [List.append_eq_nil] at h
    exact natDigs_ne_nil p h.2
  cases hC1 : padZeros w (natDigs p) with
  | nil => exact absurd hC1 hCne
  | cons x xs =>
      rw [hC1] at hC
      have hx : isDigitCh x = true := hC x (by simp)
      have hxnul : ¬((x == '\x00') = true) := by
        intro hb
        rw [beq_iff_eq] at hb
        subst hb
        exact absurd hx (by decide)
      have hdw : List.dropWhile (fun c => c == '\x00') (x :: xs ++ ".png".data)
          = x :: xs ++ ".png".data := List.dropWhile_cons_of_neg hxnul
      rw [hdw,
        takeWhile_app_all isDigitCh (x :: xs) _ hC,
        dropWhile_app_all isDigitCh (x :: xs) _ hC]
      have hpt : List.takeWhile isDigitCh (".png".data) = [] := by decide
      have hpd : List.dropWhile isDigitCh (".png".data) = ".png".data := by decide
      rw [hpt, hpd, List.append_nil]
      cases hrev : (x :: xs).reverse with
      | nil => exact absurd hrev (by simp)
      | cons y ys =>
          rw [backtrackNumR]
          have htm : tailMatch (".png".data) = true := by decide
          rw [htm, if_pos rfl, ← hrev, List.reverse_reverse]

/-- Helper: the zero run the first `0*` consumes in front of a nonzero
number is exactly the padding. -/
theorem pad_take_zeros (w i : Nat) (hi : i ≠ 0) (b : List Char) :
    List.takeWhile (fun c => c == '0') (padZeros w (natDigs i) ++ b)
      = List.replicate (w - (natDigs i).length) '0' := by
  obtain ⟨d0, ds, hDi, hc0⟩ := natDigs_head_ne_zero i hi
  show List.takeWhile (fun c => c == '0')
      (List.replicate (w - (natDigs i).length) '0' ++ natDigs i ++ b) = _
  rw [List.append_assoc,
    takeWhile_app_all _ _ _ (fun c hc => by
      have h := List.eq_of_mem_replicate hc
      subst h
      decide),
    hDi, List.cons_append, List.takeWhile_cons_of_neg (by simp [hc0]),
    List.append_nil]

/-- Helper: dropping the zero padding in front of a nonzero number leaves
the number itself. -/
theorem pad_drop_zeros (w i : Nat) (hi : i ≠ 0) (b : List Char) :
    List.dropWhile (fun c => c == '0') (padZeros w (natDigs i) ++ b)
      = natDigs i ++ b := by
  obtain ⟨d0, ds, hDi, hc0⟩ := natDigs_head_ne_zero i hi
  show List.dropWhile (fun c => c == '0')
      (List.replicate (w - (natDigs i).length) '0' ++ natDigs i ++ b) = _
  rw [List.append_assoc,
    dropWhile_app_all _ _ _ (fun c hc => by
      have h := List.eq_of_mem_replicate hc
      subst h
      decide),
    hDi, List.cons_append, List.dropWhile_cons_of_neg (by simp [hc0])]

/-- Helper: `\d+` consumes a decimal numeral up to the dash. -/
theorem natDigs_take_digits (i : Nat) (b : List Char) :
    List.takeWhile isDigitCh (natDigs i ++ '-' :: b) = natDigs i := by
  rw [takeWhile_app_all isDigitCh _ _ (natDigs_digits i),
    List.takeWhile_cons_of_neg (by decide : ¬(isDigitCh '-' = true)),
    List.append_nil]

/-- Helper: after `\d+` the scan sits on the dash. -/
theorem natDigs_drop_digits (i : Nat) (b : List Char) :
    List.dropWhile isDigitCh (natDigs i ++ '-' :: b) = '-' :: b := by
  rw [dropWhile_app_all isDigitCh _ _ (natDigs_digits i),
    List.dropWhile_cons_of_neg (by decide : ¬(isDigitCh '-' = true))]

/-- Helper: `matchAt` succeeds at the start of a generated filename and
returns exactly the encoded pair. -/
theorem matchAt_shotName (w i p : Nat) :
    matchAt (shotName w i p) = some (i, p) := by
  by_cases hi : i = 0
  · subst hi
    have hA : ∀ c ∈ padZeros w (natDigs 0), (c == '0') = true := by
      intro c hc
      unfold padZeros at hc
      rw [natDigs_zero] at hc
      rw [List.mem_append] at hc
      rcases hc with hc | hc
      · have h := List.eq_of_mem_replicate hc
        subst h
        decide
      · simp only [List.mem_singleton] at hc
        subst hc
        decide
    have hAne : padZeros w (natDigs 0) ≠ [] := by
      unfold padZeros
      intro h
      rw [List.append_eq_nil] at h
      exact natDigs_ne_nil 0 h.2
    show matchAt (padZeros w (natDigs 0)
        ++ ('-' :: (padZeros w (natDigs p) ++ (".png".data)))) = some (0, p)
    simp only [matchAt]
    rw [takeWhile_app_all _ _ _ hA, dropWhile_app_all _ _ _ hA,
      List.takeWhile_cons_of_neg (by decide), List.dropWhile_cons_of_neg (by decide),
      List.takeWhile_cons_of_neg (by decide : ¬(isDigitCh '-' = true)),
      List.append_nil]
    rw [isEmpty_false_of_ne_nil hAne]
    simp only [List.isEmpty_nil, if_true, Bool.false_eq_true, if_false]
    rw [second_group_eval w p]
    dsimp only
    rw [digitsToNat_padZeros]
    rfl
  · show matchAt (padZeros w (natDigs i)
        ++ ('-' :: (padZeros w (natDigs p) ++ (".png".data)))) = some (i, p)
    simp only [matchAt]
    rw [pad_take_zeros w i hi, pad_drop_zeros w i hi,
      natDigs_take_digits, natDigs_drop_digits,
      isEmpty_false_of_ne_nil (natDigs_ne_nil i)]
    simp only [Bool.false_eq_true, if_false]
    rw [second_group_eval w p]
    dsimp only
    rw [digitsToNat_padZeros, digitsToNat_natDigs]

/-- C10.  Round trip of page identity through filenames: for every pad
width, capture index i and page number p, the zero-padded filename written
by the capture stage is accepted by the transcription parser and parses
back to exactly (i, p); with `w = indexPad captureUntil` this is the
production pad width. -/
theorem filename_round_trip (w i p : Nat) :
    scanMatch (shotName w i p) = some (i, p) := by
  have hm := matchAt_shotName w i p
  have hne : shotName w i p ≠ [] := by
    unfold shotName
    intro h
    rw [List.append_eq_nil] at h
    exact absurd h.2 (by simp)
  cases hsn : shotName w i p with
  | nil => exact absurd hsn hne
  | cons c t =>
      rw [hsn] at hm
      rw [scanMatch, hm]

/-- Helper: a Bool that is not true is false. -/
theorem bool_eq_false_of_not {b : Bool} (h : ¬b = true) : b = false := by
  cases b
  · rfl
  · exact absurd rfl h

/-- Helper: whitespace characters are not digits and vice versa. -/
theorem digit_not_ws (c : Char) (h : isDigitCh c = true) : isWs c = false := by
  apply bool_eq_false_of_not
  intro hw
  simp only [isDigitCh, decide_eq_true_eq] at h
  simp only [isWs, decide_eq_true_eq] at hw
  omega

theorem noNlWs_cons_elim {a : Char} {l : List Char}
    (h : noNlWs (a :: l) = true) : noNlWs l = true := by
  cases l with
  | nil => rfl
  | cons b t =>
      rw [noNlWs, Bool.and_eq_true] at h
      exact h.2

theorem noNlWs_cons_intro {a : Char} {l : List Char} (ha : (a == '\n') = false)
    (h : noNlWs l = true) : noNlWs (a :: l) = true := by
  cases l with
  | nil => rfl
  | cons b t =>
      rw [noNlWs, Bool.and_eq_true]
      exact ⟨by simp [ha], h⟩

/-- Helper: prepending an LF preserves `noNlWs` when the list starts with a
non-whitespace character. -/
theorem noNlWs_cons_nl {l : List Char} (h1 : headOk l = true)
    (h2 : noNlWs l = true) : noNlWs ('\n' :: l) = true := by
  cases l with
  | nil => rfl
  | cons b t =>
      rw [headOk, Bool.not_eq_eq_eq_not, Bool.not_true] at h1
      rw [noNlWs, Bool.and_eq_true]
      exact ⟨by simp [h1], h2⟩

/-- The `/^\s*/gm` pass leaves no whitespace at a line start; its output from
a line start additionally starts with a non-whitespace character. -/
theorem slGo_inv (l : List Char) :
    (headOk (slGo true l) = true ∧ noNlWs (slGo true l) = true)
    ∧ noNlWs (slGo false l) = true := by
  induction l with
  | nil => exact ⟨⟨rfl, rfl⟩, rfl⟩
  | cons c rest ih =>
      constructor
      · by_cases hw : isWs c = true
        · have he : slGo true (c :: rest) = slGo true rest := by
            simp [slGo, hw]
          rw [he]
          exact ih.1
        · have hcn : c ≠ '\n' := fun h => hw (by rw [h]; decide)
          have he : slGo true (c :: rest) = c :: slGo false rest := by
            simp [slGo, hw, decide_eq_false hcn]
          rw [he]
          refine ⟨by simp [headOk, bool_eq_false_of_not hw], ?_⟩
          exact noNlWs_cons_intro (by simp [hcn]) ih.2
      · by_cases hcn : c = '\n'
        · subst hcn
          have he : slGo false ('\n' :: rest) = '\n' :: slGo true rest := by
            simp [slGo]
          rw [he]
          exact noNlWs_cons_nl ih.1.1 ih.1.2
        · have he : slGo false (c :: rest) = c :: slGo false rest := by
            simp [slGo, decide_eq_false hcn]
          rw [he]
          exact noNlWs_cons_intro (by simp [hcn]) ih.2

theorem noNlWs_split (x y : List Char) (h : noNlWs (x ++ y) = true) :
    noNlWs x = true ∧ noNlWs y = true := by
  induction x with
  | nil => exact ⟨rfl, h⟩
  | cons a x' ih =>
      rw [List.cons_append] at h
      have h2 := ih (noNlWs_cons_elim h)
      refine ⟨?_, h2.2⟩
      cases hx : x' with
      | nil => rfl
      | cons b t =>
          subst hx
          rw [List.cons_append, noNlWs, Bool.and_eq_true] at h
          rw [noNlWs, Bool.and_eq_true]
          exact ⟨h.1, h2.1⟩

/-- Shape of the kept part of a whitespace run: under `noNlWs` an LF can
only be the run's last character, so the suffix from the last LF is either
the whole run (no LF inside) or the single LF. -/
theorem suffix_ws_run {l : List Char} (hws : ∀ c ∈ l, isWs c = true)
    (hn : noNlWs l = true) :
    (suffixFromLastNl l = l ∧ ∀ x ∈ l, (x == '\n') = false)
    ∨ suffixFromLastNl l = ['\n'] := by
  induction l with
  | nil => exact Or.inl ⟨rfl, by simp⟩
  | cons c rest ih =>
      by_cases hc : rest.contains '\n' = true
      · rcases ih (fun x hx => hws x (by simp [hx])) (noNlWs_cons_elim hn) with
          ⟨h1, h2⟩ | h2
        · exfalso
          have hmem : ('\n' : Char) ∈ rest := by
            rw [← List.elem_iff]
            exact hc
          have := h2 '\n' hmem
          simp at this
        · right
          rw [suffixFromLastNl, if_pos hc]
          exact h2
      · have hcf : rest.contains '\n' = false := bool_eq_false_of_not hc
        by_cases hcn : c = '\n'
        · subst hcn
          cases rest with
          | nil =>
              right
              rfl
          | cons b t =>
              exfalso
              have hb : isWs b = true := hws b (by simp)
              rw [noNlWs, Bool.and_eq_true] at hn
              have := hn.1
              simp [hb] at this
        · left
          constructor
          · rw [suffixFromLastNl, if_neg hc]
          · intro x hx
            rcases List.mem_cons.mp hx with hx | hx
            · subst hx
              simp [hcn]
            · apply bool_eq_false_of_not
              intro hb
              rw [beq_iff_eq] at hb
              subst hb
              have hcf2 : List.elem '\n' rest = false := hcf
              have hcf3 := List.elem_iff.mpr hx
              rw [hcf3] at hcf2
              cases hcf2

theorem noWsNl_cons_intro {a : Char} {l : List Char} (ha : isWs a = false)
    (h : noWsNl l = true) : noWsNl (a :: l) = true := by
  cases l with
  | nil => rfl
  | cons b t =>
      rw [noWsNl, Bool.and_eq_true]
      exact ⟨by simp [ha], h⟩

theorem noWsNl_cons_intro2 {a : Char} {l : List Char}
    (hh : ∀ b, l.head? = some b → (b == '\n') = false)
    (h : noWsNl l = true) : noWsNl (a :: l) = true := by
  cases l with
  | nil => rfl
  | cons b t =>
      rw [noWsNl, Bool.and_eq_true]
      exact ⟨by simp [hh b rfl], h⟩

/-- Helper: `noNlWs` survives prepending characters that are not LFs. -/
theorem noNlWs_append_no_nl (x y : List Char)
    (hx : ∀ c ∈ x, (c == '\n') = false) (hy : noNlWs y = true) :
    noNlWs (x ++ y) = true := by
  induction x with
  | nil => exact hy
  | cons a x' ih =>
      rw [List.cons_append]
      exact noNlWs_cons_intro (hx a (by simp))
        (ih (fun c hc => hx c (by simp [hc])))

/-- Helper: `noWsNl` survives prepending characters that are not LFs, when
the tail also does not begin with an LF. -/
theorem noWsNl_append_no_nl (x y : List Char)
    (hx : ∀ c ∈ x, (c == '\n') = false) (hy : noWsNl y = true)
    (hyh : ∀ b, y.head? = some b → (b == '\n') = false) :
    noWsNl (x ++ y) = true := by
  induction x with
  | nil => exact hy
  | cons a x' ih =>
      rw [List.cons_append]
      apply noWsNl_cons_intro2
      · intro b hb
        cases hx' : x' with
        | nil =>
            subst hx'
            exact hyh b hb
        | cons z t =>
            subst hx'
            rw [List.cons_append, List.head?_cons, Option.some_inj] at hb
            subst hb
            exact hx z (by simp)
      · exact ih (fun c hc => hx c (by simp [hc]))

theorem lastOk_cons (a : Char) (l : List Char) (h : l ≠ []) :
    lastOk (a :: l) = lastOk l := by
  cases l with
  | nil => exact absurd rfl h
  | cons b t => rfl

theorem lastOk_append (x y : List Char) (h : y ≠ []) :
    lastOk (x ++ y) = lastOk y := by
  induction x with
  | nil => rfl
  | cons a x' ih =>
      rw [List.cons_append, lastOk_cons a (x' ++ y) ?hne, ih]
      case hne =>
        intro hcon
        rw [List.append_eq_nil] at hcon
        exact h hcon.2

/-- The `/\s*$/gm` pass: given an input whose lines have no leading
whitespace (the `/^\s*/gm` output), the scan leaves a string whose lines
also have no trailing whitespace, whose last character is not whitespace,
and whose line starts are still clean. -/
theorem stGo_inv (l : List Char) : ∀ (pending : List Char),
    (∀ c ∈ pending, isWs c = true) → noNlWs (pending ++ l) = true →
    noNlWs (stGo pending l) = true ∧ noWsNl (stGo pending l) = true
      ∧ lastOk (stGo pending l) = true := by
  induction l with
  | nil => intro pending _ _; exact ⟨rfl, rfl, rfl⟩
  | cons c rest ih =>
      intro pending hp hn
      by_cases hw : isWs c = true
      · have he : stGo pending (c :: rest) = stGo (pending ++ [c]) rest := by
          simp [stGo, hw]
        rw [he]
        apply ih (pending ++ [c])
        · intro x hx
          rw [List.mem_append, List.mem_singleton] at hx
          rcases hx with hx | hx
          · exact hp x hx
          · subst hx; exact hw
        · rw [List.append_assoc]
          simpa using hn
      · have hwf : isWs c = false := bool_eq_false_of_not hw
        have he : stGo pending (c :: rest) =
            suffixFromLastNl pending ++ (c :: stGo [] rest) := by
          simp [stGo, hw]
        rw [he]
        have hnp : noNlWs pending = true := (noNlWs_split pending (c :: rest) hn).1
        have hnr : noNlWs rest = true :=
          noNlWs_cons_elim (noNlWs_split pending (c :: rest) hn).2
        obtain ⟨s1, s2, s3⟩ := ih [] (by simp) (by simpa using hnr)
        have hcnl : (c == '\n') = false := by
          apply bool_eq_false_of_not
          intro hb
          rw [beq_iff_eq] at hb
          subst hb
          exact hw (by decide)
        have hnc : noNlWs (c :: stGo [] rest) = true := noNlWs_cons_intro hcnl s1
        have hwc : noWsNl (c :: stGo [] rest) = true := noWsNl_cons_intro hwf s2
        have hlc : lastOk (c :: stGo [] rest) = true := by
          cases hS : stGo [] rest with
          | nil => simp [lastOk, hwf]
          | cons b t =>
              rw [lastOk_cons c (b :: t) (by simp), ← hS]
              exact s3
        rcases suffix_ws_run hp hnp with ⟨hsfx, hpnl⟩ | hsfx
        · rw [hsfx]
          refine ⟨noNlWs_append_no_nl pending _ hpnl hnc,
            noWsNl_append_no_nl pending _ hpnl hwc ?_, ?_⟩
          · intro b hb
            rw [List.head?_cons, Option.some_inj] at hb
            subst hb
            exact hcnl
          · rw [lastOk_append pending _ (by simp)]
            exact hlc
        · rw [hsfx]
          refine ⟨?_, ?_, ?_⟩
          · rw [List.singleton_append, noNlWs, Bool.and_eq_true]
            exact ⟨by simp [hwf], hnc⟩
          · rw [List.singleton_append, noWsNl, Bool.and_eq_true]
            exact ⟨by simp [hcnl], hwc⟩
          · rw [List.singleton_append, lastOk_cons _ _ (by simp)]
            exact hlc

/-- The `/\s*$/gm` pass preserves a clean head. -/
theorem stGo_headOk {l : List Char} (h : headOk l = true) :
    headOk (stGo [] l) = true := by
  cases l with
  | nil => rfl
  | cons c rest =>
      rw [headOk, Bool.not_eq_eq_eq_not, Bool.not_true] at h
      have he : stGo [] (c :: rest) = c :: stGo [] rest := by
        simp [stGo, h, suffixFromLastNl]
      rw [he]
      simp [headOk, h]

/-- Helper: no match of the bare-number pattern can start on a character
that is neither whitespace nor a digit. -/
theorem bareNumMatchLen_plain (c : Char) (l : List Char)
    (hws : isWs c = false) (hd : isDigitCh c = false) :
    bareNumMatchLen (c :: l) = none := by
  simp only [bareNumMatchLen]
  rw [List.dropWhile_cons_of_neg (by simp [hws]),
    List.takeWhile_cons_of_neg (by simp [hd])]
  rfl

/-- Helper: the bare-number scanner copies a character that is neither
whitespace nor a digit and leaves line-start mode. -/
theorem bnGo_step_plain (c : Char) (l : List Char)
    (hws : isWs c = false) (hd : isDigitCh c = false) :
    bnGo true (c :: l) = c :: bnGo false l
    ∧ bnGo false (c :: l) = c :: bnGo false l := by
  have hcn : c ≠ '\n' := fun h => by
    rw [h] at hws
    exact absurd hws (by decide)
  constructor
  · simp [bnGo, bareNumMatchLen_plain c l hws hd, decide_eq_false hcn]
  · simp [bnGo, decide_eq_false hcn]

/-- Helper: the scanner walks over a block of plain word characters. -/
theorem bnGo_skip_word : ∀ (pre : List Char), pre ≠ [] →
    (∀ c ∈ pre, isWs c = false ∧ isDigitCh c = false) →
    ∀ (flag : Bool) (l : List Char),
      bnGo flag (pre ++ l) = pre ++ bnGo false l := by
  intro pre
  induction pre with
  | nil => intro h; exact absurd rfl h
  | cons c pre' ih =>
      intro _ h flag l
      have hc := h c (by simp)
      have hstep := bnGo_step_plain c (pre' ++ l) hc.1 hc.2
      cases pre' with
      | nil =>
          cases flag
          · exact hstep.2
          · exact hstep.1
      | cons c2 pre'' =>
          have hrec := ih (by simp) (fun x hx => h x (by simp [hx])) false l
          cases flag
          · rw [List.cons_append, hstep.2, hrec]
            rfl
          · rw [List.cons_append, hstep.1, hrec]
            rfl

/-- Helper: the scanner steps over an LF back into line-start mode. -/
theorem bnGo_nl (l : List Char) :
    bnGo false ('\n' :: l) = '\n' :: bnGo true l := by
  simp [bnGo]

/-- Helper: dropping one more than the length of a prefix removes the
prefix and one further element. -/
theorem drop_len_append (a : List Char) (x : Char) (b : List Char) :
    List.drop (a.length + 1) (a ++ x :: b) = b := by
  induction a with
  | nil => rfl
  | cons c t ih =>
      show List.drop (t.length + 1 + 1) (c :: (t ++ x :: b)) = b
      rw [List.drop_succ_cons]
      exact ih

/-- Helper: at a line start holding a bare number followed by an LF and the
literal text world, the pattern matches the number line and its LF, and the
scanner deletes it, leaving the rest untouched. -/
theorem bnGo_numline (n : Nat) :
    bnGo true (natDigs n ++ ('\n' :: ("world".data))) = "world".data := by
  cases hD : natDigs n with
  | nil => exact absurd hD (natDigs_ne_nil n)
  | cons d0 ds =>
      have hdig : ∀ c ∈ d0 :: ds, isDigitCh c = true := hD ▸ natDigs_digits n
      have hd0 : isDigitCh d0 = true := hdig d0 (by simp)
      have hd0ws : isWs d0 = false := digit_not_ws d0 hd0
      have hlen : bareNumMatchLen (d0 :: (ds ++ ('\n' :: ("world".data))))
          = some ((d0 :: ds).length + 1) := by
        show bareNumMatchLen ((d0 :: ds) ++ ('\n' :: ("world".data))) = _
        simp only [bareNumMatchLen]
        rw [List.cons_append, List.takeWhile_cons_of_neg (by simp [hd0ws]),
          List.dropWhile_cons_of_neg (by simp [hd0ws]), ← List.cons_append,
          takeWhile_app_all isDigitCh _ _ hdig,
          List.takeWhile_cons_of_neg (by decide : ¬(isDigitCh '\n' = true)),
          dropWhile_app_all isDigitCh _ _ hdig,
          List.dropWhile_cons_of_neg (by decide : ¬(isDigitCh '\n' = true)),
          List.append_nil]
        rw [isEmpty_false_of_ne_nil (by simp : (d0 :: ds) ≠ [])]
        simp only [Bool.false_eq_true, if_false]
        rw [List.takeWhile_cons_of_pos (by decide : isWs '\n' = true),
          (by decide : List.takeWhile isWs ("world".data) = [])]
        simp [suffixFromLastNl]
      show bnGo true (d0 :: (ds ++ ('\n' :: ("world".data)))) = "world".data
      simp only [bnGo]
      rw [if_pos trivial, hlen]
      dsimp only
      exact drop_len_append (d0 :: ds) '\n' ['w', 'o', 'r', 'l', 'd']

/-- C9 amended.  What the cleaning step actually guarantees: (a) every line
of the cleaned response is trimmed — the output never has whitespace at its
start, right after a newline, right before a newline, or at its end (the
whitespace class includes newlines, so blank lines are collapsed as well);
and (b) the first bare page-number line is removed WHEREVER it occurs, not
only as the leading line — here a whole family of inputs with the number
line in second position, for every page number n. -/
theorem clean_response_amended :
    (∀ raw : List Char,
        headOk (cleanResponse raw) = true
        ∧ noNlWs (cleanResponse raw) = true
        ∧ noWsNl (cleanResponse raw) = true
        ∧ lastOk (cleanResponse raw) = true)
    ∧ ∀ n : Nat,
        cleanResponse ("hello\n".data ++ (natDigs n ++ ("\nworld".data)))
          = "hello\nworld".data := by
  constructor
  · intro raw
    have h2 := slGo_inv (stripFirstBareNum raw)
    have h3 := stGo_inv (stripLineLeading (stripFirstBareNum raw)) []
      (by simp) (by simpa using h2.1.2)
    exact ⟨stGo_headOk h2.1.1, h3.1, h3.2.1, h3.2.2⟩
  · intro n
    have h1 : stripFirstBareNum
        ("hello\n".data ++ (natDigs n ++ ("\nworld".data)))
        = "hello\nworld".data := by
      show bnGo true
          ("hello".data ++ ('\n' :: (natDigs n ++ ('\n' :: ("world".data)))))
          = "hello\nworld".data
      rw [bnGo_skip_word ("hello".data) (by decide) (by decide),
        bnGo_nl, bnGo_numline]
      decide
    show stripLineTrailing (stripLineLeading (stripFirstBareNum
        ("hello\n".data ++ (natDigs n ++ ("\nworld".data))))) = _
    rw [h1]
    decide
